import Mathlib

set_option maxRecDepth 100000

/-!
Verification of the replican-sync specification against a shallow embedding
of its source code.

The embedding covers:
* the weak rolling checksum (package blocks: WeakChecksum.Write / Roll / Get),
* file and block indexing (package blocks: IndexFile / IndexBlock / IndexBlocks),
* the local store path functions (package fs: localBase.RelPath / Resolve) and
  localBase.ReadBlock,
* the patch planner and executor (package sync: NewPatchPlan, the PatchCmd
  family, PatchPlan.Exec, PatchPlan.Clean).

Modelling conventions:
* Go byte values are Lean Int (the Go code converts bytes to int before any
  arithmetic); Go int is a 64-bit machine integer, modelled as Int with
  explicit two's-complement wrapping where a bitwise operation occurs
  (see go64encode / go64decode).  All additive checksum arithmetic stays far
  below the int64 range for real inputs, so plain Int addition is used there.
* SHA-1 is modelled as an injective digest: a digest value (type Strong) is
  the digested byte stream itself, with file-content digests and
  directory-listing digests kept in separate constructors.  This is the
  standard collision-free idealisation; the spec relies on it
  (fingerprint equality implies byte equality).
* Filesystem trees are spine-encoded mutual inductives mirroring the Go
  Dir / File structures.
-/

/-! ## Weak rolling checksum (package blocks, part_003) -/

/-- Go: const BLOCKSIZE int = 8192, used as an Int in checksum arithmetic. -/
def BLOCKSIZE : Int := 8192

/-- BLOCKSIZE as a Nat, for list windows and offsets. -/
def BLOCKSIZEn : Nat := 8192

/-- State of the rsync-style weak checksum: two accumulators a, b. -/
structure WeakChecksum where
  a : Int
  b : Int
  deriving DecidableEq, Repr

/-- The loop body of WeakChecksum.Write: for each byte x at index i of a
buffer of length len, a += x and b += (len - i) * x. -/
def writeAux (len : Int) : WeakChecksum → Int → List Int → WeakChecksum
  | st, _, [] => st
  | st, i, x :: xs => writeAux len ⟨st.a + x, st.b + (len - i) * x⟩ (i + 1) xs

/-- WeakChecksum.Write: feed a whole buffer into the checksum. -/
def WeakChecksum.Write (st : WeakChecksum) (buf : List Int) : WeakChecksum :=
  writeAux (buf.length : Int) st 0 buf

/-- WeakChecksum.Roll: slide the window one byte.
Go: a -= removed - incoming; b -= removed * BLOCKSIZE - a, where the second
line reads the already-updated a (inlined below). -/
def WeakChecksum.Roll (st : WeakChecksum) (removedByte newByte : Int) : WeakChecksum :=
  ⟨st.a - (removedByte - newByte),
    st.b - (removedByte * BLOCKSIZE - (st.a - (removedByte - newByte)))⟩

/-- Two's-complement encoding of a Go int64 as a Nat below 2^64. -/
def go64encode (x : Int) : Nat := (x % (2 : Int) ^ 64).toNat

/-- Decode a Nat below 2^64 back to the Go int64 it represents. -/
def go64decode (n : Nat) : Int :=
  if n < 2 ^ 63 then (n : Int) else (n : Int) - 2 ^ 64

/-- Go left shift on int64. -/
def goShl (x : Int) (k : Nat) : Int := go64decode ((go64encode x <<< k) % 2 ^ 64)

/-- Go bitwise or on int64. -/
def goOr (x y : Int) : Int := go64decode (go64encode x ||| go64encode y)

/-- Go bitwise and on int64. -/
def goAnd (x y : Int) : Int := go64decode (go64encode x &&& go64encode y)

/-- WeakChecksum.Get.  Go: return weak.b << 16 | weak.a  (note: no mask on a). -/
def WeakChecksum.Get (st : WeakChecksum) : Int := goOr (goShl st.b 16) st.a

/-- The value the spec claims Get returns: (b << 16) | (a & 0xFFFF). -/
def specGet (st : WeakChecksum) : Int := goOr (goShl st.b 16) (goAnd st.a 65535)

/-! ### Closed forms for Write -/

/-- Weighted sum with decreasing weights: wsum w [x0, x1, ...] =
w*x0 + (w-1)*x1 + ... -/
def wsum : Int → List Int → Int
  | _, [] => 0
  | w, x :: xs => w * x + wsum (w - 1) xs

theorem writeAux_spec (xs : List Int) : ∀ (st : WeakChecksum) (i len : Int),
    writeAux len st i xs = ⟨st.a + xs.sum, st.b + wsum (len - i) xs⟩ := by
  induction xs with
  | nil => intro st i len; cases st; simp [writeAux, wsum]
  | cons x xs ih =>
    intro st i len
    rw [writeAux, ih]
    cases st
    simp only [wsum, List.sum_cons, WeakChecksum.mk.injEq]
    constructor <;> ring

theorem Write_spec (buf : List Int) :
    WeakChecksum.Write ⟨0, 0⟩ buf = ⟨buf.sum, wsum (buf.length : Int) buf⟩ := by
  rw [WeakChecksum.Write, writeAux_spec]
  simp

theorem wsum_succ (xs : List Int) : ∀ w : Int, wsum (w + 1) xs = wsum w xs + xs.sum := by
  induction xs with
  | nil => intro w; simp [wsum]
  | cons x xs ih =>
    intro w
    simp only [wsum, List.sum_cons]
    have h1 : w + 1 - 1 = w - 1 + 1 := by ring
    rw [h1, ih (w - 1)]
    ring

theorem wsum_append (xs ys : List Int) : ∀ w : Int,
    wsum w (xs ++ ys) = wsum w xs + wsum (w - (xs.length : Int)) ys := by
  induction xs with
  | nil => intro w; simp [wsum]
  | cons x xs ih =>
    intro w
    rw [List.cons_append]
    rw [show wsum w (x :: (xs ++ ys)) = w * x + wsum (w - 1) (xs ++ ys) from rfl]
    rw [show wsum w (x :: xs) = w * x + wsum (w - 1) xs from rfl]
    rw [ih (w - 1), List.length_cons]
    push_cast
    ring_nf

/-! ### Claim C8: rolling from offset 0 equals a fresh Write at offset o -/

/-- The BLOCKSIZE window of a byte sequence at offset o. -/
def windowAt (s : List Int) (o : Nat) : List Int := (s.drop o).take BLOCKSIZEn

/-- Seed the weak checksum on the window at offset 0, then Roll once per byte:
state after o rolls. -/
def rollFrom (s : List Int) : Nat → WeakChecksum
  | 0 => WeakChecksum.Write ⟨0, 0⟩ (windowAt s 0)
  | o + 1 => (rollFrom s o).Roll (s.getD o 0) (s.getD (o + BLOCKSIZEn) 0)

theorem length_windowAt (s : List Int) (o : Nat) (h : o + BLOCKSIZEn ≤ s.length) :
    (windowAt s o).length = BLOCKSIZEn := by
  simp only [windowAt, List.length_take, List.length_drop]
  omega

theorem windowAt_cons (s : List Int) (o : Nat) (h : o < s.length) :
    windowAt s o = s[o] :: (s.drop (o + 1)).take (BLOCKSIZEn - 1) := by
  rw [windowAt, List.drop_eq_getElem_cons h]
  conv_lhs => rw [show BLOCKSIZEn = BLOCKSIZEn - 1 + 1 from rfl]
  rw [List.take_succ_cons]

theorem windowAt_snoc (s : List Int) (o : Nat) (h : o + BLOCKSIZEn < s.length) :
    windowAt s (o + 1) = (s.drop (o + 1)).take (BLOCKSIZEn - 1) ++ [s[o + BLOCKSIZEn]] := by
  have hBval : BLOCKSIZEn = 8192 := rfl
  rw [windowAt]
  conv_lhs => rw [show BLOCKSIZEn = BLOCKSIZEn - 1 + 1 from rfl]
  rw [List.take_succ]
  congr 1
  rw [List.getElem?_drop]
  have hidx : o + 1 + (BLOCKSIZEn - 1) = o + BLOCKSIZEn := by omega
  rw [hidx, List.getElem?_eq_getElem h]
  rfl

/-- Claim C8: for every byte sequence and every offset o such that a full
BLOCKSIZE window fits, the weak-checksum state obtained by seeding a window at
offset 0 and rolling once per byte up to offset o equals the state obtained by
a fresh Write over the window starting at o. -/
theorem claim_C8_roll_eq_fresh_write (s : List Int) (o : Nat)
    (h : o + BLOCKSIZEn ≤ s.length) :
    rollFrom s o = WeakChecksum.Write ⟨0, 0⟩ (windowAt s o) := by
  induction o with
  | zero => rfl
  | succ o ih =>
    have hBval : BLOCKSIZEn = 8192 := rfl
    have ho : o + BLOCKSIZEn ≤ s.length := by omega
    have holt : o < s.length := by omega
    have hoB : o + BLOCKSIZEn < s.length := by omega
    have hwin_o := windowAt_cons s o holt
    have hwin_o1 := windowAt_snoc s o hoB
    set m : List Int := (s.drop (o + 1)).take (BLOCKSIZEn - 1) with hm
    have hmlen : m.length = BLOCKSIZEn - 1 := by
      simp only [hm, List.length_take, List.length_drop]
      omega
    -- lengths of the two windows
    have hlen_o : (windowAt s o).length = BLOCKSIZEn := length_windowAt s o ho
    have hlen_o1 : (windowAt s (o + 1)).length = BLOCKSIZEn :=
      length_windowAt s (o + 1) h
    -- getD values used by rollFrom
    have hgd1 : s.getD o 0 = s[o] := by
      simp [List.getD_eq_getElem?_getD, List.getElem?_eq_getElem holt]
    have hgd2 : s.getD (o + BLOCKSIZEn) 0 = s[o + BLOCKSIZEn] := by
      simp [List.getD_eq_getElem?_getD, List.getElem?_eq_getElem hoB]
    rw [rollFrom, ih ho, hgd1, hgd2]
    rw [Write_spec, Write_spec, hlen_o, hlen_o1]
    rw [hwin_o1, hwin_o]
    have hmlenZ : ((m.length : Int)) = (BLOCKSIZEn : Int) - 1 := by
      rw [hmlen]; norm_num [hBval]
    have e1 : (s[o] :: m).sum = s[o] + m.sum := by simp
    have e2 : (m ++ [s[o + BLOCKSIZEn]]).sum = m.sum + s[o + BLOCKSIZEn] := by simp
    have e3 : wsum ((BLOCKSIZEn : Nat) : Int) (s[o] :: m)
        = ((BLOCKSIZEn : Nat) : Int) * s[o] + wsum (((BLOCKSIZEn : Nat) : Int) - 1) m := rfl
    have e4 : wsum ((BLOCKSIZEn : Nat) : Int) (m ++ [s[o + BLOCKSIZEn]])
        = wsum ((BLOCKSIZEn : Nat) : Int) m
          + (((BLOCKSIZEn : Nat) : Int) - (m.length : Int)) * s[o + BLOCKSIZEn] := by
      rw [wsum_append]
      simp [wsum]
    have e5 : wsum ((BLOCKSIZEn : Nat) : Int) m
        = wsum (((BLOCKSIZEn : Nat) : Int) - 1) m + m.sum := by
      have h5 := wsum_succ m (((BLOCKSIZEn : Nat) : Int) - 1)
      rw [sub_add_cancel] at h5
      exact h5
    have hBI : BLOCKSIZE = ((BLOCKSIZEn : Nat) : Int) := by
      norm_num [BLOCKSIZE, BLOCKSIZEn]
    simp only [WeakChecksum.Roll, e1, e2, e3, e4, e5, hmlenZ, hBI, WeakChecksum.mk.injEq]
    constructor
    · ring
    · ring

/-- Witness for C8 at a concrete input: a window fits at offset 1 of a
sequence of 8193 zero bytes. -/
theorem claim_C8_witness :
    1 + BLOCKSIZEn ≤ (List.replicate 8193 (0 : Int)).length ∧
      rollFrom (List.replicate 8193 (0 : Int)) 1
        = WeakChecksum.Write ⟨0, 0⟩ (windowAt (List.replicate 8193 (0 : Int)) 1) :=
  ⟨by rw [List.length_replicate]; norm_num [BLOCKSIZEn],
    claim_C8_roll_eq_fresh_write _ 1 (by rw [List.length_replicate]; norm_num [BLOCKSIZEn])⟩

/-! ### Claim C7: the value returned by Get

The spec claims Get returns (b << 16) | (a & 0xFFFF).  The Go source returns
b << 16 | a with no mask on a, so bits of a at position 16 and above leak into
the b half.  The two agree exactly when 0 <= a < 2^16. -/

/-- Counterexample to claim C7: after writing a real 264-byte buffer (byte
value 252), the a accumulator is 66528 >= 2^16 and Get differs from the
spec's masked formula. -/
theorem claim_C7_counterexample :
    WeakChecksum.Get (WeakChecksum.Write ⟨0, 0⟩ (List.replicate 264 252))
      ≠ specGet (WeakChecksum.Write ⟨0, 0⟩ (List.replicate 264 252)) := by
  decide

/-- Claim C7 as amended: Get returns b << 16 | a with no masking of a; the
claimed formula (b << 16) | (a & 0xFFFF) agrees with Get whenever the a
accumulator lies in [0, 2^16). -/
theorem claim_C7_amended_get_masked (st : WeakChecksum)
    (ha0 : 0 ≤ st.a) (ha : st.a < 65536) :
    st.Get = specGet st := by
  have hand : goAnd st.a 65535 = st.a := by
    have ha64 : st.a < (2 : Int) ^ 64 :=
      lt_of_lt_of_le ha (by norm_num)
    have he : go64encode st.a = st.a.toNat := by
      rw [go64encode, Int.emod_eq_of_lt ha0 ha64]
    have he2 : go64encode 65535 = 65535 := by decide
    rw [goAnd, he, he2]
    have h1 : st.a.toNat &&& 65535 = st.a.toNat := by
      have h2 := Nat.and_pow_two_sub_one_eq_mod st.a.toNat 16
      have h3 : (2 : Nat) ^ 16 - 1 = 65535 := by norm_num
      have h4 : (2 : Nat) ^ 16 = 65536 := by norm_num
      rw [h3, h4] at h2
      rw [h2, Nat.mod_eq_of_lt (by omega)]
    have h63 : st.a.toNat < 2 ^ 63 := by
      have h5 : (2 : Nat) ^ 63 = 9223372036854775808 := by norm_num
      omega
    rw [h1, go64decode, if_pos h63, Int.toNat_of_nonneg ha0]
  rw [WeakChecksum.Get, specGet, hand]

/-- Witness for the amended C7 at the concrete state (a, b) = (3, 7). -/
theorem claim_C7_amended_witness :
    (0 : Int) ≤ 3 ∧ (3 : Int) < 65536 ∧
      WeakChecksum.Get ⟨3, 7⟩ = specGet ⟨3, 7⟩ :=
  ⟨by decide, by decide,
    claim_C7_amended_get_masked ⟨3, 7⟩ (by decide) (by decide)⟩

/-! ## Strong checksums: injective digest model

StrongChecksum in the source is SHA-1 rendered as hex.  We model the digest as
the digested stream itself, kept injective: a raw-byte digest (file or block
contents) and a directory-listing digest use distinct constructors, and a
directory listing is a spine of (child strong, is-dir flag, child name)
entries mirroring the lines DirContents writes. -/

inductive Strong where
  | bytesS (bs : List Int) : Strong
  | snil : Strong
  | scons (child : Strong) (d : Bool) (name : String) (rest : Strong) : Strong
  deriving DecidableEq, Repr

/-! ## Indexing (package blocks, part_003) -/

/-- A block of the hierarchical index (blocks.Block): position within its
file, weak checksum, strong checksum. -/
structure GoBlock where
  position : Nat
  weak : Int
  strong : Strong
  deriving DecidableEq, Repr

/-- A file of the hierarchical index (blocks.File). -/
structure GoFile where
  name : String
  size : Int
  strong : Strong
  blocks : List GoBlock
  deriving DecidableEq, Repr

/-- An on-disk file as the indexer sees it: a path, mode bits and content
bytes.  IndexFile opens the path and streams the content; the mode is never
read by it. -/
structure DiskFile where
  path : List String
  mode : Int
  content : List Int
  deriving DecidableEq, Repr

/-- Last path segment, as filepath.Split produces for IndexFile's file name. -/
def basename (p : List String) : String := p.getLast?.getD ""

/-- The BLOCKSIZE read loop of IndexFile: split the content into chunks of at
most BLOCKSIZE bytes (every chunk except possibly the last is full).  Fuel
recursion; content.length is always enough fuel. -/
def chunksOfF : Nat → List Int → List (List Int)
  | 0, _ => []
  | _ + 1, [] => []
  | n + 1, x :: xs => (x :: xs).take BLOCKSIZEn :: chunksOfF n ((x :: xs).drop BLOCKSIZEn)

def chunksOf (l : List Int) : List (List Int) := chunksOfF l.length l

theorem chunksOfF_flatten : ∀ (n : Nat) (l : List Int), l.length ≤ n →
    (chunksOfF n l).flatten = l := by
  intro n
  induction n with
  | zero =>
    intro l h
    have : l = [] := List.eq_nil_of_length_eq_zero (by omega)
    subst this
    rfl
  | succ n ih =>
    intro l h
    cases l with
    | nil => rfl
    | cons x xs =>
      have hB : BLOCKSIZEn = 8192 := rfl
      simp only [List.length_cons] at h
      have hlen : ((x :: xs).drop BLOCKSIZEn).length ≤ n := by
        simp only [List.length_drop, List.length_cons]
        omega
      rw [chunksOfF, List.flatten_cons, ih _ hlen]
      exact List.take_append_drop _ _

theorem chunksOf_flatten (l : List Int) : (chunksOf l).flatten = l :=
  chunksOfF_flatten l.length l le_rfl

/-- blocks.IndexBlock: weak and strong checksum of one block buffer.  The
position is filled in by the caller (IndexFile), as in the source. -/
def IndexBlock (buf : List Int) (pos : Nat) : GoBlock :=
  { position := pos
    weak := (WeakChecksum.Write ⟨0, 0⟩ buf).Get
    strong := .bytesS buf }

/-- blocks.IndexFile: stream the content in BLOCKSIZE chunks, emit one block
per non-empty chunk (position = chunk index), and maintain a single strong
digest across the whole stream, which becomes the file strong. -/
def IndexFile (f : DiskFile) : GoFile :=
  { name := basename f.path
    size := (f.content.length : Int)
    strong := .bytesS (chunksOf f.content).flatten
    blocks := (chunksOf f.content).enum.map (fun pr => IndexBlock pr.2 pr.1) }

/-- Claim C9: the strong checksum computed by IndexFile is a function of the
content bytes only; two files with identical content get identical strongs
regardless of name, path or mode, and the streamed digest equals the digest
of the whole content. -/
theorem claim_C9_strong_content_only (f g : DiskFile) (h : f.content = g.content) :
    (IndexFile f).strong = (IndexFile g).strong ∧
      (IndexFile f).strong = Strong.bytesS f.content := by
  constructor
  · simp [IndexFile, h]
  · simp [IndexFile, chunksOf_flatten]

/-- Witness for C9: two concrete files with different paths and modes but the
same three content bytes. -/
theorem claim_C9_witness :
    (DiskFile.mk ["a", "x"] 493 [7, 8, 9]).content
        = (DiskFile.mk ["b"] 384 [7, 8, 9]).content ∧
      (IndexFile ⟨["a", "x"], 493, [7, 8, 9]⟩).strong
          = (IndexFile ⟨["b"], 384, [7, 8, 9]⟩).strong ∧
        (IndexFile ⟨["a", "x"], 493, [7, 8, 9]⟩).strong = Strong.bytesS [7, 8, 9] :=
  ⟨by decide,
    (claim_C9_strong_content_only ⟨["a", "x"], 493, [7, 8, 9]⟩ ⟨["b"], 384, [7, 8, 9]⟩ rfl).1,
    (claim_C9_strong_content_only ⟨["a", "x"], 493, [7, 8, 9]⟩ ⟨["b"], 384, [7, 8, 9]⟩ rfl).2⟩

/-! ## The flat BlockIndex (blocks.IndexBlocks, part_003)

The hierarchical index of the blocks package: Dir (subdirs, files), File
(blocks), Block.  Dir.strong is a cached field in the source; the model
carries it as data.  Walk is the queue-based traversal of the source; the
IndexBlocks visitor accepts every node. -/

mutual
inductive GoDir where
  | mk (name : String) (strong : Strong) (subdirs : GoDirList) (files : List GoFile) : GoDir
inductive GoDirList where
  | nil : GoDirList
  | cons (head : GoDir) (tail : GoDirList) : GoDirList
end

def GoDirList.toList : GoDirList → List GoDir
  | .nil => []
  | .cons d rest => d :: GoDirList.toList rest

/-- A node of the hierarchical index (blocks.Node): a dir, file or block. -/
inductive GoNode where
  | dirN (d : GoDir)
  | fileN (f : GoFile)
  | blockN (b : GoBlock)

/-- Children in Child(i) order: subdirs then files for a dir, blocks for a
file, none for a block. -/
def nodeChildren : GoNode → List GoNode
  | .dirN (.mk _ _ subs files) =>
    (GoDirList.toList subs).map GoNode.dirN ++ files.map GoNode.fileN
  | .fileN f => f.blocks.map GoNode.blockN
  | .blockN _ => []

/-- Node.Strong() of each node kind. -/
def nodeStrong : GoNode → Strong
  | .dirN (.mk _ s _ _) => s
  | .fileN f => f.strong
  | .blockN b => b.strong

mutual
/-- Number of nodes below (and including) a dir, used as walk fuel. -/
def GoDir.nodeCount : GoDir → Nat
  | .mk _ _ subs files =>
    1 + GoDirList.nodeCountList subs + (files.map (fun f => 1 + f.blocks.length)).sum
def GoDirList.nodeCountList : GoDirList → Nat
  | .nil => 0
  | .cons d rest => GoDir.nodeCount d + GoDirList.nodeCountList rest
end

def GoNode.count : GoNode → Nat
  | .dirN d => d.nodeCount
  | .fileN f => 1 + f.blocks.length
  | .blockN _ => 1

/-- blocks.Walk: breadth-first queue traversal; the visitor used by
IndexBlocks accepts every node, so every node's children are enqueued.
Structural fuel; GoNode.count is always sufficient. -/
def walkNodes : Nat → List GoNode → List GoNode
  | 0, _ => []
  | _ + 1, [] => []
  | n + 1, x :: rest => x :: walkNodes n (rest ++ nodeChildren x)

/-- The walk order of a whole index rooted at a node. -/
def walkList (root : GoNode) : List GoNode := walkNodes root.count [root]

/-! ### Go maps as association lists (single binding per key, last write wins) -/

def mapErase {κ ν : Type} [DecidableEq κ] : List (κ × ν) → κ → List (κ × ν)
  | [], _ => []
  | p :: m, k => if p.1 = k then mapErase m k else p :: mapErase m k

def mapInsert {κ ν : Type} [DecidableEq κ] (m : List (κ × ν)) (k : κ) (v : ν) :
    List (κ × ν) :=
  (k, v) :: mapErase m k

def mapLookup {κ ν : Type} [DecidableEq κ] : List (κ × ν) → κ → Option ν
  | [], _ => none
  | p :: m, k => if p.1 = k then some p.2 else mapLookup m k

theorem mapLookup_erase_ne {κ ν : Type} [DecidableEq κ]
    (m : List (κ × ν)) (k k' : κ) (h : k' ≠ k) :
    mapLookup (mapErase m k) k' = mapLookup m k' := by
  induction m with
  | nil => rfl
  | cons q m ih =>
    rw [mapErase]
    by_cases hq : q.1 = k
    · rw [if_pos hq, ih, mapLookup, if_neg (by rw [hq]; exact fun hc => h hc.symm)]
    · rw [if_neg hq, mapLookup, mapLookup]
      by_cases hq2 : q.1 = k'
      · rw [if_pos hq2, if_pos hq2]
      · rw [if_neg hq2, if_neg hq2, ih]

theorem mapLookup_insert {κ ν : Type} [DecidableEq κ]
    (m : List (κ × ν)) (k k' : κ) (v : ν) :
    mapLookup (mapInsert m k v) k' = if k' = k then some v else mapLookup m k' := by
  rw [mapInsert, mapLookup]
  by_cases h : k' = k
  · rw [if_pos h.symm, if_pos h]
  · rw [if_neg (fun hc => h hc.symm), if_neg h, mapLookup_erase_ne m k k' h]

/-! ### IndexBlocks -/

/-- The flat index: WeakMap (weak checksum → one block) and StrongMap
(strong → node), exactly the two Go maps of blocks.BlockIndex. -/
structure BlockIndex where
  WeakMap : List (Int × GoBlock)
  StrongMap : List (Strong × GoNode)

/-- The visitor body of IndexBlocks: record the node under its strong, and a
block also under its weak checksum. -/
def stepIndex (idx : BlockIndex) (nd : GoNode) : BlockIndex :=
  let idx1 : BlockIndex := { idx with StrongMap := mapInsert idx.StrongMap (nodeStrong nd) nd }
  match nd with
  | .blockN b => { idx1 with WeakMap := mapInsert idx1.WeakMap b.weak b }
  | _ => idx1

/-- blocks.IndexBlocks: derive the flat BlockIndex from a root node by a
single walk. -/
def IndexBlocks (root : GoNode) : BlockIndex :=
  (walkList root).foldl stepIndex ⟨[], []⟩

/-- The blocks of a node list, in order. -/
def blocksOf (l : List GoNode) : List GoBlock :=
  l.filterMap (fun nd => match nd with | .blockN b => some b | _ => none)

theorem find?_append_or {α : Type} (l₁ l₂ : List α) (p : α → Bool) :
    (l₁ ++ l₂).find? p = Option.or (l₁.find? p) (l₂.find? p) := by
  induction l₁ with
  | nil => simp [Option.or]
  | cons a l ih =>
    by_cases h : p a
    · simp [List.find?, h, Option.or]
    · simp only [Bool.not_eq_true] at h
      simp [List.find?, h, ih]

theorem foldIndex_weak (l : List GoNode) : ∀ (i : BlockIndex) (w : Int),
    mapLookup ((l.foldl stepIndex i).WeakMap) w
      = Option.or ((blocksOf l).reverse.find? (fun b => b.weak == w))
          (mapLookup i.WeakMap w) := by
  induction l with
  | nil => intro i w; simp [blocksOf, Option.or]
  | cons nd l ih =>
    intro i w
    rw [List.foldl_cons, ih]
    cases nd with
    | dirN d => rfl
    | fileN f => rfl
    | blockN b =>
      have hstep : (stepIndex i (.blockN b)).WeakMap = mapInsert i.WeakMap b.weak b := rfl
      rw [hstep, mapLookup_insert]
      have hblocks : blocksOf (GoNode.blockN b :: l) = b :: blocksOf l := rfl
      rw [hblocks, List.reverse_cons, find?_append_or]
      cases hA : (blocksOf l).reverse.find? (fun b => b.weak == w) with
      | some x => simp [Option.or]
      | none =>
        simp only [Option.or]
        by_cases hw : w = b.weak
        · subst hw
          simp [List.find?]
        · have hw' : (b.weak == w) = false := by
            simp only [beq_eq_false_iff_ne]
            exact fun hc => hw hc.symm
          simp [List.find?, hw', if_neg hw]

/-- Claim C5 as amended: the flat BlockIndex's weak map binds each weak
checksum to a single block — the last one encountered in the index walk.  A
block is retrievable under its weak checksum only when no later-walked block
shares that weak; two colliding blocks leave only the later one retrievable. -/
theorem claim_C5_amended_weakmap_last (root : GoNode) (w : Int) :
    mapLookup (IndexBlocks root).WeakMap w
      = (blocksOf (walkList root)).reverse.find? (fun b => b.weak == w) := by
  rw [IndexBlocks, foldIndex_weak]
  cases h : (blocksOf (walkList root)).reverse.find? (fun b => b.weak == w) with
  | some x => simp [Option.or, mapLookup]
  | none => simp [Option.or, mapLookup]

/-- Counterexample to claim C5: a tree with two 3-byte files whose single
blocks share the weak checksum 327683 but have different contents.  The
earlier block is a block of a file of the tree, yet the weak map resolves its
weak checksum to the other block: it is not retrievable. -/
theorem claim_C5_counterexample :
    (IndexFile ⟨["f1"], 0, [0, 2, 1]⟩).blocks = [⟨0, 327683, .bytesS [0, 2, 1]⟩] ∧
      (IndexFile ⟨["f2"], 0, [1, 0, 2]⟩).blocks = [⟨0, 327683, .bytesS [1, 0, 2]⟩] ∧
        mapLookup
            (IndexBlocks (.dirN (.mk ""
              (.scons (.bytesS [0, 2, 1]) false "f1"
                (.scons (.bytesS [1, 0, 2]) false "f2" .snil)) .nil
              [IndexFile ⟨["f1"], 0, [0, 2, 1]⟩, IndexFile ⟨["f2"], 0, [1, 0, 2]⟩]))).WeakMap
            327683
          = some ⟨0, 327683, .bytesS [1, 0, 2]⟩ ∧
          (⟨0, 327683, Strong.bytesS [0, 2, 1]⟩ : GoBlock) ≠ ⟨0, 327683, .bytesS [1, 0, 2]⟩ :=
  ⟨by decide, by decide, by decide, by decide⟩

/-! ## localBase.ReadBlock (package fs, part_001)

fs.NodeRepo's implementation is not under src; the repo block lookup and the
underlying ReadInto call are therefore parameters of the embedding.  Modelled
from the spec: the repo binds strong checksums to block records, and ReadInto
writes bytes into the buffer and reports an optional error.  The body of
localBase.ReadBlock itself is translated line by line from part_001. -/

/-- fs.BlockInfo: position, weak, strong and parent-file strong of a block
(Go field names Position / Weak / Strong / Parent, lowercased here because
the type Strong is in scope). -/
structure FsBlockInfo where
  position : Nat
  weak : Int
  strong : Strong
  parent : Strong
  deriving DecidableEq, Repr

/-- An os.Error value. -/
inductive OsError where
  | notFound (strong : Strong)
  | ioErr (msg : String)
  deriving DecidableEq, Repr

/-- BlockInfo.Offset(): position * BLOCKSIZE. -/
def FsBlockInfo.Offset (b : FsBlockInfo) : Int := (b.position : Int) * BLOCKSIZE

/-- localBase.ReadBlock.  Go:

  block, has := store.repo.Block(strong)
  if !has { return nil, NewError(...) }
  buf := new buffer
  _, err := store.ReadInto(block.Info().Strong, block.Info().Offset(), BLOCKSIZE, buf)
  if err == nil { return nil, err }
  return buf.Bytes(), nil

The second return is (nil, nil) although the read succeeded, and the third
returns the partial buffer with a nil error although the read failed.  The
first component of readInto's result is the content of the buffer after the
call (what ReadInto wrote before stopping). -/
def localBaseReadBlock (repoBlock : Strong → Option FsBlockInfo)
    (readInto : Strong → Int → Int → List Int × Option OsError)
    (strong : Strong) : Option (List Int) × Option OsError :=
  match repoBlock strong with
  | none => (none, some (.notFound strong))
  | some block =>
    let r := readInto block.strong block.Offset BLOCKSIZE
    match r.2 with
    | none => (none, none)
    | some _ => (r.1, none)

/-- Claim C3 evaluated at its failing inputs: for a strong checksum bound to a
block, a successful underlying read makes ReadBlock return nil bytes and nil
error (instead of the block's bytes), and a failing underlying read makes it
return the partial buffer with a nil error (instead of propagating the error).
Only the unbound case behaves as claimed. -/
theorem claim_C3_readblock_inverted :
    localBaseReadBlock (fun _ => some ⟨0, 327683, .bytesS [1, 2, 3], .bytesS [1, 2, 3, 4]⟩)
        (fun _ _ _ => ([1, 2, 3], none)) (.bytesS [1, 2, 3])
      = (none, none) ∧
      localBaseReadBlock (fun _ => some ⟨0, 327683, .bytesS [1, 2, 3], .bytesS [1, 2, 3, 4]⟩)
          (fun _ _ _ => ([1, 2], some (.ioErr "read failed"))) (.bytesS [1, 2, 3])
        = (some [1, 2], none) ∧
        localBaseReadBlock (fun _ => none) (fun _ _ _ => ([], none)) (.bytesS [9])
          = (none, some (.notFound (.bytesS [9]))) :=
  ⟨rfl, rfl, rfl⟩

/-! ## Local store path functions (package fs, part_001)

localBase.RelPath and localBase.Resolve are built on Go's strings.Replace,
strings.TrimLeft and filepath.Join/Clean.  Paths are modelled as lists of
characters; the Go standard-library functions are translated from their
documented behavior for slash-separated paths. -/

/-- Prepend a character to the first piece of a split result. -/
def consHead (c : Char) : List (List Char) → List (List Char)
  | [] => [[c]]
  | s :: ss => (c :: s) :: ss

/-- Split a path on the slash separator (keeping empty pieces, like
strings.Split does). -/
def splitSlash : List Char → List (List Char)
  | [] => [[]]
  | c :: rest => if c = '/' then [] :: splitSlash rest else consHead c (splitSlash rest)

/-- Join path segments with single slashes. -/
def joinSegs : List (List Char) → List Char
  | [] => []
  | [s] => s
  | s :: t :: rest => s ++ '/' :: joinSegs (t :: rest)

/-- The dot-dot elimination pass of filepath.Clean, stack-based: ".." pops
the previous segment, is dropped at the root, and accumulates otherwise. -/
def elimDD (rooted : Bool) : List (List Char) → List (List Char) → List (List Char)
  | acc, [] => acc.reverse
  | [], s :: rest =>
    if s = ['.', '.'] then
      (if rooted then elimDD rooted [] rest else elimDD rooted [s] rest)
    else elimDD rooted [s] rest
  | t :: acc', s :: rest =>
    if s = ['.', '.'] then
      (if t = ['.', '.'] then elimDD rooted (s :: t :: acc') rest
        else elimDD rooted acc' rest)
    else elimDD rooted (s :: t :: acc') rest

/-- filepath.Clean's segment normalisation: drop empty and "." segments,
then eliminate "..". -/
def cleanSegs (rooted : Bool) (segs : List (List Char)) : List (List Char) :=
  elimDD rooted [] (segs.filter (fun s => !s.isEmpty && s != ['.']))

/-- filepath.Clean for slash-separated paths. -/
def goClean (p : List Char) : List Char :=
  let rooted := p.head? == some '/'
  match cleanSegs rooted (splitSlash p) with
  | [] => if rooted then ['/'] else ['.']
  | s :: rest => if rooted then '/' :: joinSegs (s :: rest) else joinSegs (s :: rest)

/-- filepath.Join of two elements: empty elements are dropped, the rest are
joined with a slash, and the result is Cleaned. -/
def goJoin (a b : List Char) : List Char :=
  if a.isEmpty then (if b.isEmpty then [] else goClean b)
  else if b.isEmpty then goClean a
  else goClean (a ++ '/' :: b)

/-- Does the first list lead the second (prefix test)? -/
def leadsWith : List Char → List Char → Bool
  | [], _ => true
  | _ :: _, [] => false
  | p :: ps, c :: cs => p == c && leadsWith ps cs

/-- strings.Replace(s, pat, empty, 1): remove the first occurrence of pat. -/
def replaceFirst (pat : List Char) : List Char → List Char
  | [] => []
  | c :: cs =>
    if leadsWith pat (c :: cs) then (c :: cs).drop pat.length
    else c :: replaceFirst pat cs

/-- strings.TrimLeft(s, slashes): strip leading slash and backslash. -/
def trimLeftSlashes : List Char → List Char
  | [] => []
  | c :: rest => if c = '/' ∨ c = '\\' then trimLeftSlashes rest else c :: rest

/-- The path-relevant state of fs.localBase: root path and relocation map. -/
structure LocalBase where
  rootPath : List Char
  relocs : List (List Char × List Char)

/-- localBase.RelPath: strip the first occurrence of the root path, then trim
leading separators. -/
def LocalBase.RelPath (st : LocalBase) (fullpath : List Char) : List Char :=
  trimLeftSlashes (replaceFirst st.rootPath fullpath)

/-- localBase.Resolve: apply the relocation map to the relative path, then
join it onto the root path. -/
def LocalBase.Resolve (st : LocalBase) (relpath : List Char) : List Char :=
  goJoin st.rootPath
    (match mapLookup st.relocs relpath with
      | some r => r
      | none => relpath)

/-- A well-formed path segment: nonempty, not "." or "..", and free of
separators. -/
def isGoodSeg (s : List Char) : Bool :=
  !s.isEmpty && s != ['.'] && s != ['.', '.'] && !s.contains '/' && !s.contains '\\'

/-- Counterexample to claim C10: the relative path "." has no leading
separator and no relocation entry, yet RelPath (Resolve ".") = "" ≠ ".",
because filepath.Join cleans the path. -/
theorem claim_C10_counterexample :
    (['.'] : List Char).head? ≠ some '/' ∧
      mapLookup (([] : List (List Char × List Char))) ['.'] = none ∧
        LocalBase.RelPath ⟨['/', 'r'], []⟩
            (LocalBase.Resolve ⟨['/', 'r'], []⟩ ['.'])
          ≠ ['.'] := by
  refine ⟨by decide, rfl, by decide⟩

theorem splitSlash_ne_nil (p : List Char) : splitSlash p ≠ [] := by
  cases p with
  | nil => simp [splitSlash]
  | cons c rest =>
    rw [splitSlash]
    by_cases h : c = '/'
    · simp [h]
    · rw [if_neg h]
      cases hs : splitSlash rest with
      | nil => simp [consHead]
      | cons s ss => simp [consHead]

theorem consHead_append (c : Char) (l₁ l₂ : List (List Char)) (h : l₁ ≠ []) :
    consHead c (l₁ ++ l₂) = consHead c l₁ ++ l₂ := by
  cases l₁ with
  | nil => exact absurd rfl h
  | cons s ss => rfl

theorem splitSlash_append_slash (a b : List Char) :
    splitSlash (a ++ '/' :: b) = splitSlash a ++ splitSlash b := by
  induction a with
  | nil => simp [splitSlash]
  | cons c a ih =>
    rw [List.cons_append, splitSlash, splitSlash]
    by_cases h : c = '/'
    · rw [if_pos h, if_pos h, ih, List.cons_append]
    · rw [if_neg h, if_neg h, ih, consHead_append c _ _ (splitSlash_ne_nil a)]

theorem splitSlash_no_slash (s : List Char) (h : ¬ s.contains '/') : splitSlash s = [s] := by
  induction s with
  | nil => rfl
  | cons c cs ih =>
    have h1 : ¬ (c = '/') := fun hc => h (by simp [List.contains_cons, hc])
    have h2 : ¬ (cs.contains '/' = true) := fun hc =>
      h (by simp only [List.contains_cons, Bool.or_eq_true]; exact Or.inr hc)
    rw [splitSlash, if_neg h1, ih h2, consHead]

theorem splitSlash_joinSegs (ss : List (List Char)) (hne : ss ≠ [])
    (hgood : ∀ s ∈ ss, ¬ s.contains '/') : splitSlash (joinSegs ss) = ss := by
  induction ss with
  | nil => exact absurd rfl hne
  | cons s ss ih =>
    cases ss with
    | nil =>
      rw [joinSegs]
      exact splitSlash_no_slash s (hgood s (by simp))
    | cons t rest =>
      rw [joinSegs, splitSlash_append_slash,
        splitSlash_no_slash s (hgood s (by simp)),
        ih (by simp) (fun x hx => hgood x (List.mem_cons_of_mem s hx))]
      rfl

theorem filter_of_good (ss : List (List Char)) (hgood : ∀ s ∈ ss, isGoodSeg s = true) :
    ss.filter (fun s => !s.isEmpty && s != ['.']) = ss := by
  rw [List.filter_eq_self]
  intro s hs
  have h := hgood s hs
  simp only [isGoodSeg, Bool.and_eq_true] at h
  simp only [Bool.and_eq_true]
  exact ⟨h.1.1.1.1, h.1.1.1.2⟩

theorem elimDD_no_dotdot (rooted : Bool) (l : List (List Char)) :
    ∀ acc, (∀ s ∈ l, s ≠ ['.', '.']) → elimDD rooted acc l = acc.reverse ++ l := by
  induction l with
  | nil => intro acc _; simp [elimDD]
  | cons s rest ih =>
    intro acc h
    have hrest : ∀ x ∈ rest, x ≠ ['.', '.'] := fun x hx => h x (by simp [hx])
    cases acc with
    | nil =>
      rw [elimDD, if_neg (h s (by simp)), ih [s] hrest]
      simp
    | cons t acc' =>
      rw [elimDD, if_neg (h s (by simp)), ih (s :: t :: acc') hrest]
      simp

theorem joinSegs_append (rs ps : List (List Char)) (hrs : rs ≠ []) (hps : ps ≠ []) :
    joinSegs (rs ++ ps) = joinSegs rs ++ '/' :: joinSegs ps := by
  induction rs with
  | nil => exact absurd rfl hrs
  | cons s rest ih =>
    cases rest with
    | nil =>
      cases ps with
      | nil => exact absurd rfl hps
      | cons t tt => rw [List.singleton_append, joinSegs, joinSegs]
    | cons t tt =>
      rw [List.cons_append, joinSegs]
      have h1 : (t :: tt) ++ ps = t :: (tt ++ ps) := rfl
      rw [show ((t :: tt) ++ ps : List (List Char)) = t :: (tt ++ ps) from rfl]
      rw [show joinSegs (s :: t :: (tt ++ ps)) = s ++ '/' :: joinSegs (t :: (tt ++ ps)) from rfl]
      rw [← h1, ih (by simp)]
      simp [joinSegs]

theorem joinSegs_ne_nil (ss : List (List Char)) (hne : ss ≠ [])
    (hgood : ∀ s ∈ ss, isGoodSeg s = true) : joinSegs ss ≠ [] := by
  cases ss with
  | nil => exact absurd rfl hne
  | cons s rest =>
    have hs := hgood s (by simp)
    simp only [isGoodSeg, Bool.and_eq_true] at hs
    have hsne : s ≠ [] := by
      have h1 := hs.1.1.1.1
      simp only [Bool.not_eq_true'] at h1
      exact fun hc => by rw [hc] at h1; simp at h1
    cases rest with
    | nil => rw [joinSegs]; exact hsne
    | cons t tt =>
      rw [joinSegs]
      cases s with
      | nil => exact absurd rfl hsne
      | cons c cs => simp

theorem goodSeg_no_slash (s : List Char) (h : isGoodSeg s = true) :
    ¬ s.contains '/' := by
  simp only [isGoodSeg, Bool.and_eq_true] at h
  have h2 := h.1.2
  simp only [Bool.not_eq_true'] at h2
  intro hc
  rw [h2] at hc
  exact Bool.noConfusion hc

theorem goClean_rooted_clean (rs ps : List (List Char)) (hrs : rs ≠ []) (hps : ps ≠ [])
    (hgr : ∀ s ∈ rs, isGoodSeg s = true) (hgp : ∀ s ∈ ps, isGoodSeg s = true) :
    goClean (('/' :: joinSegs rs) ++ '/' :: joinSegs ps)
      = '/' :: joinSegs (rs ++ ps) := by
  have hgood : ∀ s ∈ rs ++ ps, isGoodSeg s = true := by
    intro s hs
    rcases List.mem_append.mp hs with h | h
    · exact hgr s h
    · exact hgp s h
  have hsplit : splitSlash (('/' :: joinSegs rs) ++ '/' :: joinSegs ps)
      = [] :: (rs ++ ps) := by
    rw [List.cons_append, splitSlash, if_pos rfl, splitSlash_append_slash,
      splitSlash_joinSegs rs hrs (fun s hs => goodSeg_no_slash s (hgr s hs)),
      splitSlash_joinSegs ps hps (fun s hs => goodSeg_no_slash s (hgp s hs))]
  have hrooted : ((('/' :: joinSegs rs) ++ '/' :: joinSegs ps).head? == some '/') = true := by
    rw [List.cons_append]
    simp
  rw [goClean]
  simp only [hrooted, hsplit]
  have hfilter : (([] :: (rs ++ ps)).filter (fun s => !s.isEmpty && s != ['.']))
      = rs ++ ps := by
    rw [List.filter_cons]
    have hcond : ((!(([] : List Char).isEmpty) && (([] : List Char) != ['.']))) = false := by
      decide
    rw [hcond]
    simp only [Bool.false_eq_true, if_false]
    exact filter_of_good _ hgood
  rw [cleanSegs, hfilter, elimDD_no_dotdot true _ [] (fun s hs => by
    have h := hgood s hs
    simp only [isGoodSeg, Bool.and_eq_true] at h
    have h3 := h.1.1.2
    simp only [bne_iff_ne, ne_eq] at h3
    exact h3)]
  rw [List.reverse_nil, List.nil_append]
  cases hc : rs ++ ps with
  | nil => exact absurd (List.append_eq_nil.mp hc).1 hrs
  | cons x xs => simp [← hc]

theorem leadsWith_append_self (pat rest : List Char) : leadsWith pat (pat ++ rest) = true := by
  induction pat with
  | nil => rfl
  | cons p ps ih => simp [leadsWith, ih]

theorem replaceFirst_at_start (root tail : List Char) (hroot : root ≠ []) :
    replaceFirst root (root ++ tail) = tail := by
  cases root with
  | nil => exact absurd rfl hroot
  | cons r0 rtail =>
    rw [List.cons_append, replaceFirst]
    have hl : leadsWith (r0 :: rtail) (r0 :: (rtail ++ tail)) = true := by
      rw [← List.cons_append]
      exact leadsWith_append_self _ _
    rw [if_pos hl, ← List.cons_append]
    exact List.drop_left _ _

theorem joinSegs_cons_dissect (s : List Char) (rest : List (List Char)) :
    joinSegs (s :: rest)
      = s ++ (match rest with | [] => [] | t :: tt => '/' :: joinSegs (t :: tt)) := by
  cases rest with
  | nil => simp [joinSegs]
  | cons t tt => rfl

theorem trimLeft_good_head (s tail2 : List Char) (hgood : isGoodSeg s = true) :
    trimLeftSlashes (s ++ tail2) = s ++ tail2 := by
  simp only [isGoodSeg, Bool.and_eq_true] at hgood
  cases s with
  | nil =>
    have h1 := hgood.1.1.1.1
    simp at h1
  | cons c cs =>
    have hslash : ¬ (c = '/') := by
      intro hc
      have h4 := hgood.1.2
      rw [hc] at h4
      simp [List.contains_cons] at h4
    have hback : ¬ (c = '\\') := by
      intro hc
      have h4 := hgood.2
      rw [hc] at h4
      simp [List.contains_cons] at h4
    rw [List.cons_append, trimLeftSlashes, if_neg (by tauto)]

/-- Claim C10 as amended: the round trip RelPath (Resolve p) = p holds for
every relative path p that is a nonempty slash-join of well-formed segments
(nonempty, not "." or "..", separator-free) with no relocation entry,
provided the store root is a cleaned absolute path of such segments.  For
other inputs filepath.Join's cleaning breaks the round trip (see the
counterexample). -/
theorem claim_C10_amended_round_trip (rs ps : List (List Char))
    (relocs : List (List Char × List Char))
    (hrs : rs ≠ []) (hps : ps ≠ [])
    (hgr : ∀ s ∈ rs, isGoodSeg s = true) (hgp : ∀ s ∈ ps, isGoodSeg s = true)
    (hreloc : mapLookup relocs (joinSegs ps) = none) :
    LocalBase.RelPath ⟨'/' :: joinSegs rs, relocs⟩
      (LocalBase.Resolve ⟨'/' :: joinSegs rs, relocs⟩ (joinSegs ps)) = joinSegs ps := by
  have hrootne : ('/' :: joinSegs rs : List Char) ≠ [] := by simp
  have hpne : joinSegs ps ≠ [] := joinSegs_ne_nil ps hps hgp
  have hbne : (joinSegs ps).isEmpty = false := by
    cases hj : joinSegs ps with
    | nil => exact absurd hj hpne
    | cons x xs => rfl
  have hres : LocalBase.Resolve ⟨'/' :: joinSegs rs, relocs⟩ (joinSegs ps)
      = ('/' :: joinSegs rs) ++ '/' :: joinSegs ps := by
    simp only [LocalBase.Resolve, hreloc]
    rw [goJoin]
    rw [show (('/' :: joinSegs rs : List Char).isEmpty) = false from rfl, hbne]
    simp only [Bool.false_eq_true, if_false]
    rw [goClean_rooted_clean rs ps hrs hps hgr hgp, joinSegs_append rs ps hrs hps,
      List.cons_append]
  rw [hres, LocalBase.RelPath, replaceFirst_at_start _ _ hrootne]
  rw [trimLeftSlashes, if_pos (Or.inl rfl)]
  cases hps' : ps with
  | nil => exact absurd hps' hps
  | cons s rest =>
    rw [joinSegs_cons_dissect]
    exact trimLeft_good_head s _ (hgp s (by rw [hps']; simp))

/-- Witness for the amended C10: root "/r", relative path "a", empty
relocation map. -/
theorem claim_C10_amended_witness :
    ([['r']] : List (List Char)) ≠ [] ∧ ([['a']] : List (List Char)) ≠ [] ∧
      (∀ s ∈ [[('r' : Char)]], isGoodSeg s = true) ∧
        (∀ s ∈ [[('a' : Char)]], isGoodSeg s = true) ∧
          mapLookup ([] : List (List Char × List Char)) (joinSegs [['a']]) = none ∧
            LocalBase.RelPath ⟨'/' :: joinSegs [['r']], []⟩
                (LocalBase.Resolve ⟨'/' :: joinSegs [['r']], []⟩ (joinSegs [['a']]))
              = joinSegs [['a']] :=
  ⟨by decide, by decide, by decide, by decide, rfl,
    claim_C10_amended_round_trip [['r']] [['a']] []
      (by decide) (by decide) (by decide) (by decide) rfl⟩

/-! ## The patch planner (package sync, patch.go)

The planner works over the fs package's tree (Dir with subdirs and files,
File with content).  The fs Indexer and MemRepo are not under src; modelled
from the spec: indexing a destination tree yields exactly the tree itself
with each file's strong equal to the digest of its content (proved for
IndexFile in claim C9), and the repo's strong-to-node maps bind each strong
checksum to one node of the tree.  Relative paths are lists of name segments
(the root's relative path is empty; filepath.Join drops the root's empty
name). -/

/-- fs.File as the planner sees it: a name and content bytes (its strong is
the digest of the content). -/
structure FFile where
  name : String
  content : List Int
  deriving DecidableEq, Repr

mutual
/-- fs.Dir: name, subdirectories, files. -/
inductive FDir where
  | mk (name : String) (subdirs : FDirList) (files : List FFile) : FDir
/-- Spine of a subdirectory list. -/
inductive FDirList where
  | dnil : FDirList
  | dcons (head : FDir) (tail : FDirList) : FDirList
end

def FDir.name : FDir → String
  | .mk n _ _ => n

def FDirList.toListD : FDirList → List FDir
  | .dnil => []
  | .dcons d rest => d :: FDirList.toListD rest

/-- File strong checksum: digest of the content (cf. claim C9). -/
def FFile.strongOf (f : FFile) : Strong := .bytesS f.content

/-- Entries a list of files contributes to a directory listing digest. -/
def fileEntriesStrong : List FFile → Strong → Strong
  | [], k => k
  | f :: rest, k => .scons (.bytesS f.content) false f.name (fileEntriesStrong rest k)

mutual
/-- fs.DirStrong / DirContents: digest of the listing of subdir entries
followed by file entries, each entry carrying the child strong, kind and
name. -/
def FDir.strongOf : FDir → Strong
  | .mk _ subs files => FDirList.dirEntriesStrong subs (fileEntriesStrong files .snil)

def FDirList.dirEntriesStrong : FDirList → Strong → Strong
  | .dnil, k => k
  | .dcons d rest, k =>
    .scons (FDir.strongOf d) true (FDir.name d) (FDirList.dirEntriesStrong rest k)
end

/-- An fs.FsNode: a dir or a file. -/
inductive PNode where
  | pdir (d : FDir)
  | pfile (f : FFile)

def PNode.strongOf : PNode → Strong
  | .pdir d => d.strongOf
  | .pfile f => .bytesS f.content

def PNode.isFile : PNode → Bool
  | .pdir _ => false
  | .pfile _ => true

/-- Relative paths as segment lists. -/
abbrev RPath := List String

/-- Children of a node with their relative paths: subdirs then files for a
dir (the push order of fs.Walk); nothing for a file (the planner's visitors
return false on files, so file children are never enqueued). -/
def childrenOf (p : RPath) : PNode → List (RPath × PNode)
  | .pdir (.mk _ subs files) =>
    (FDirList.toListD subs).map (fun d => (p ++ [d.name], PNode.pdir d)) ++
      files.map (fun f => (p ++ [f.name], PNode.pfile f))
  | .pfile _ => []

mutual
/-- Number of FsNodes of a dir, including itself. -/
def FDir.countNodes : FDir → Nat
  | .mk _ subs files => 1 + FDirList.countList subs + files.length
def FDirList.countList : FDirList → Nat
  | .dnil => 0
  | .dcons d rest => FDir.countNodes d + FDirList.countList rest
end

def PNode.countNodes : PNode → Nat
  | .pdir d => d.countNodes
  | .pfile _ => 1

/-- fs.Walk: breadth-first queue traversal, with structural fuel;
PNode.countNodes is always sufficient fuel. -/
def bfsNodes : Nat → List (RPath × PNode) → List (RPath × PNode)
  | 0, _ => []
  | _ + 1, [] => []
  | n + 1, (p, nd) :: rest => (p, nd) :: bfsNodes n (rest ++ childrenOf p nd)

/-- All FsNodes of a tree with their relative paths, in walk order. -/
def nodesOf (t : PNode) : List (RPath × PNode) := bfsNodes t.countNodes [([], t)]

/-- Modelled from the spec: NodeRepo.File - the repo's strong-to-file map.
The strong map is one-to-one; when several files share a strong the model
returns the first in traversal order (the spec does not fix which node the
map holds; no theorem below depends on the choice beyond existence and
uniqueness). -/
def repoFile (dst : PNode) (s : Strong) : Option (RPath × FFile) :=
  (nodesOf dst).findSome? (fun pr =>
    match pr.2 with
    | .pfile f => if FFile.strongOf f = s then some (pr.1, f) else none
    | .pdir _ => none)

/-- Modelled from the spec: NodeRepo.Dir - the repo's strong-to-dir map. -/
def repoDir (dst : PNode) (s : Strong) : Option (RPath × FDir) :=
  (nodesOf dst).findSome? (fun pr =>
    match pr.2 with
    | .pdir d => if FDir.strongOf d = s then some (pr.1, d) else none
    | .pfile _ => none)

/-- os.Stat of a destination relative path against the destination tree
(plan time: the store's relocation map is empty, so Resolve is just the
root join). -/
def fsStat : FDir → RPath → Option PNode
  | d, [] => some (.pdir d)
  | .mk _ subs files, nm :: rest =>
    match (FDirList.toListD subs).find? (fun c => c.name == nm) with
    | some child => fsStat child rest
    | none =>
      match files.find? (fun f => f.name == nm) with
      | some f => if rest.isEmpty then some (.pfile f) else none
      | none => none

/-- The patch command list, as a closed sum.

stagedFileEdit stands for the block-level staging sequence appendFilePlan
emits (LocalTemp, LocalTempCopy per block match, SrcTempCopy per unmatched
range, ReplaceWithTemp).  Modelled from the spec: the matcher MatchFile that
shapes this sequence is code of this repository not under src; per spec
sections 4.3-4.4 the sequence, run to success, replaces the destination
file's content with the source file's content, and that is the semantics the
single command gets in the executor.  No theorem below exercises a plan that
reaches this branch. -/
inductive PCmd where
  | keep (path : RPath)
  | transfer (fromPath toPath : RPath)
  | conflict (path : RPath)
  | srcFileDownload (strong : Strong) (path : RPath)
  | stagedFileEdit (strong : Strong) (path : RPath)
  deriving DecidableEq, Repr

def PCmd.isKeep : PCmd → Bool
  | .keep _ => true
  | _ => false

/-- Go map read with zero default: relocRefs[p]. -/
def refGet (m : List (RPath × Int)) (p : RPath) : Int := (mapLookup m p).getD 0

/-- relocRefs[p]++. -/
def refInc (m : List (RPath × Int)) (p : RPath) : List (RPath × Int) :=
  mapInsert m p (refGet m p + 1)

/-- The accumulating state of NewPatchPlan. -/
structure PlanSt where
  cmds : List PCmd
  dstFileUnmatch : List RPath
  relocRefs : List (RPath × Int)
  deriving Repr

/-- The no-content-hit branches of the visitor: source file (conflict /
download / staged edit) and source directory (conflict on a non-directory
destination). -/
def planStepNoHit (dstRoot : RPath) (cmds : List PCmd) (unmatch : List RPath)
    (refs : List (RPath × Int)) (srcPath : RPath) (nd : PNode)
    (dstFileInfo : Option PNode) : PlanSt :=
  match nd with
  | .pfile f =>
    match dstFileInfo with
    | some info =>
      if !info.isFile then
        -- Conflict (on the relative path), then fallthrough to full download
        { cmds := cmds ++ [.conflict srcPath, .srcFileDownload (FFile.strongOf f) srcPath]
          dstFileUnmatch := unmatch, relocRefs := refs }
      else
        -- destination file exists: appendFilePlan
        { cmds := cmds ++ [.stagedFileEdit (FFile.strongOf f) srcPath]
          dstFileUnmatch := unmatch, relocRefs := refs }
    | none =>
      { cmds := cmds ++ [.srcFileDownload (FFile.strongOf f) srcPath]
        dstFileUnmatch := unmatch, relocRefs := refs }
  | .pdir _ =>
    match dstFileInfo with
    | some info =>
      if info.isFile then
        -- Conflict carrying dstFilePath (the resolved, root-prefixed path)
        { cmds := cmds ++ [.conflict (dstRoot ++ srcPath)]
          dstFileUnmatch := unmatch, relocRefs := refs }
      else
        { cmds := cmds, dstFileUnmatch := unmatch, relocRefs := refs }
    | none =>
      { cmds := cmds, dstFileUnmatch := unmatch, relocRefs := refs }

/-- The source-walk visitor body of NewPatchPlan (patch.go lines 317-409)
for one source FsNode at relative path srcPath.  dstRoot is the destination
store's root path in segments; the dir-conflict branch stores the resolved
path dstRoot ++ srcPath in the command (Go stores dstFilePath in the
LocalPath's RelPath field). -/
def planStep (dst : FDir) (dstRoot : RPath) (st : PlanSt) (srcPath : RPath)
    (nd : PNode) : PlanSt :=
  let unmatch := st.dstFileUnmatch.filter (fun q => q != srcPath)
  let srcStrong := nd.strongOf
  let hit : Option (RPath × Bool) :=
    match repoFile (.pdir dst) srcStrong with
    | some (p, _) => some (p, true)
    | none =>
      match repoDir (.pdir dst) srcStrong with
      | some (p, _) => some (p, false)
      | none => none
  let dstFileInfo := fsStat dst srcPath
  match hit with
  | some (dstPath, isDstFile) =>
    if nd.isFile == isDstFile then
      let refs := refInc st.relocRefs dstPath
      if srcPath ≠ dstPath then
        { cmds := st.cmds ++ [.transfer dstPath srcPath]
          dstFileUnmatch := unmatch, relocRefs := refs }
      else
        { cmds := st.cmds ++ [.keep srcPath]
          dstFileUnmatch := unmatch, relocRefs := refs }
    else
      planStepNoHit dstRoot st.cmds unmatch st.relocRefs srcPath nd dstFileInfo
  | none =>
    planStepNoHit dstRoot st.cmds unmatch st.relocRefs srcPath nd dstFileInfo

/-- The fused source walk of NewPatchPlan: visit each node with planStep;
descend only into directories (the visitor returns !isSrcFile). -/
def planWalk (dst : FDir) (dstRoot : RPath) : Nat → PlanSt → List (RPath × PNode) → PlanSt
  | 0, st, _ => st
  | _ + 1, st, [] => st
  | n + 1, st, (p, nd) :: rest =>
    planWalk dst dstRoot n (planStep dst dstRoot st p nd) (rest ++ childrenOf p nd)

/-- The initial destination walk of NewPatchPlan: record every destination
file's relative path into dstFileUnmatch (walk order). -/
def dstFiles (dst : FDir) : List RPath :=
  (nodesOf (.pdir dst)).filterMap (fun pr =>
    match pr.2 with
    | .pfile _ => some pr.1
    | .pdir _ => none)

/-- sync.NewPatchPlan over indexed source and destination trees. -/
def NewPatchPlan (dstRoot : RPath) (src dst : FDir) : PlanSt :=
  planWalk dst dstRoot (PNode.countNodes (.pdir src))
    ⟨[], dstFiles dst, []⟩ [([], .pdir src)]

/-- Counterexample to claim C2: planning an identical tree onto itself emits
a Transfer when two files share content.  Both files bar and baz hold the
byte 7; the repo's one-to-one strong map resolves the shared strong to bar,
so baz's visit emits Transfer bar -> baz instead of Keep. -/
theorem claim_C2_counterexample :
    (NewPatchPlan ["dst"]
          (FDir.mk "" .dnil [⟨"bar", [7]⟩, ⟨"baz", [7]⟩])
          (FDir.mk "" .dnil [⟨"bar", [7]⟩, ⟨"baz", [7]⟩])).cmds
        = [.keep [], .keep ["bar"], .transfer ["bar"] ["baz"]] ∧
      ¬ ((NewPatchPlan ["dst"]
            (FDir.mk "" .dnil [⟨"bar", [7]⟩, ⟨"baz", [7]⟩])
            (FDir.mk "" .dnil [⟨"bar", [7]⟩, ⟨"baz", [7]⟩])).cmds.all PCmd.isKeep) :=
  ⟨by decide, by decide⟩

/-- Claim C6 evaluated at its failing input: source has directory d (with
child file c), destination has a regular file d.  The planner emits the
Conflict, and the traversal does descend into d's children (the download of
d/c follows) — but the Conflict's path is the resolved destination path
dstroot/d stored in the RelPath field, not the source-relative path d that
the claim (and spec section 9) require. -/
theorem claim_C6_conflict_path_resolved :
    (NewPatchPlan ["dst"]
          (FDir.mk "" (.dcons (.mk "d" .dnil [⟨"c", [5]⟩]) .dnil) [])
          (FDir.mk "" .dnil [⟨"d", [9]⟩])).cmds
        = [.conflict ["dst", "d"], .srcFileDownload (.bytesS [5]) ["d", "c"]] ∧
      (["dst", "d"] : RPath) ≠ ["d"] :=
  ⟨by decide, by decide⟩

/-! ## The patch executor (package sync, patch.go)

Filesystem state is the destination tree itself.  fs.Move is code of this
repository not under src; modelled from the spec as an atomic rename.
Transfer / Conflict / SrcFileDownload Exec bodies are translated from
patch.go; command paths resolve through the store's relocation map exactly
as LocalPath.Resolve does. -/

def hasSubName (subs : FDirList) (nm : String) : Bool :=
  (FDirList.toListD subs).any (fun c => c.name == nm)

def hasFileName (files : List FFile) (nm : String) : Bool :=
  files.any (fun f => f.name == nm)

/-- Create or truncate the file named nm (os.Create semantics at one name). -/
def replaceFileNamed : List FFile → String → FFile → List FFile
  | [], nm, f => [{ f with name := nm }]
  | g :: rest, nm, f =>
    if g.name == nm then { f with name := nm } :: rest
    else g :: replaceFileNamed rest nm f

def removeFileNamed (files : List FFile) (nm : String) : List FFile :=
  files.filter (fun f => !(f.name == nm))

def replaceSubNamed : FDirList → String → FDir → FDirList
  | .dnil, _, _ => .dnil
  | .dcons c rest, nm, d =>
    if c.name == nm then .dcons d rest else .dcons c (replaceSubNamed rest nm d)

def appendSub : FDirList → FDir → FDirList
  | .dnil, d => .dcons d .dnil
  | .dcons c rest, d => .dcons c (appendSub rest d)

def removeSubNamed : FDirList → String → FDirList
  | .dnil, _ => .dnil
  | .dcons c rest, nm => if c.name == nm then rest else .dcons c (removeSubNamed rest nm)

def renameDir (d : FDir) (nm : String) : FDir :=
  match d with
  | .mk _ s f => .mk nm s f

/-- Place an entry at a relative path, creating parent directories
(mkParentDirs + os.Create / rename target).  Fails when a file blocks an
intermediate segment, when a directory occupies a file target, or when the
target of a directory move already exists. -/
def fsSetNode : FDir → RPath → PNode → Option FDir
  | _, [], _ => none
  | .mk nm subs files, [leaf], entry =>
    match entry with
    | .pfile f =>
      if hasSubName subs leaf then none
      else some (.mk nm subs (replaceFileNamed files leaf f))
    | .pdir d =>
      if hasSubName subs leaf || hasFileName files leaf then none
      else some (.mk nm (appendSub subs (renameDir d leaf)) files)
  | .mk nm subs files, seg :: s2 :: rest, entry =>
    if hasFileName files seg then none
    else
      match (FDirList.toListD subs).find? (fun c => c.name == seg) with
      | some child =>
        (fsSetNode child (s2 :: rest) entry).map
          (fun child' => .mk nm (replaceSubNamed subs seg child') files)
      | none =>
        (fsSetNode (.mk seg .dnil []) (s2 :: rest) entry).map
          (fun child' => .mk nm (appendSub subs child') files)

/-- Remove the entry (file or whole directory) at a path, returning it. -/
def fsDetach : FDir → RPath → Option (FDir × PNode)
  | _, [] => none
  | .mk nm subs files, [leaf] =>
    match (FDirList.toListD subs).find? (fun c => c.name == leaf) with
    | some child => some (.mk nm (removeSubNamed subs leaf) files, .pdir child)
    | none =>
      match files.find? (fun f => f.name == leaf) with
      | some f => some (.mk nm subs (removeFileNamed files leaf), .pfile f)
      | none => none
  | .mk nm subs files, seg :: s2 :: rest =>
    match (FDirList.toListD subs).find? (fun c => c.name == seg) with
    | some child =>
      (fsDetach child (s2 :: rest)).map
        (fun pr => (.mk nm (replaceSubNamed subs seg pr.1) files, pr.2))
    | none => none

/-- Modelled from the spec: fs.Move (not under src) - an atomic rename of
the entry at fromP to toP. -/
def fsMove (d : FDir) (fromP toP : RPath) : Option FDir :=
  match fsDetach d fromP with
  | some (d', entry) => fsSetNode d' toP entry
  | none => none

/-- Transfer.copy: open the source path (must be a regular file; io.Copy
from a directory fails) and create/overwrite the target. -/
def fsCopyFile (d : FDir) (fromP toP : RPath) : Option FDir :=
  match fsStat d fromP with
  | some (.pfile f) => fsSetNode d toP (.pfile f)
  | _ => none

/-- os.Remove: removes a file or an empty directory, errors otherwise. -/
def fsRemove : FDir → RPath → Option FDir
  | _, [] => none
  | .mk nm subs files, [leaf] =>
    match (FDirList.toListD subs).find? (fun c => c.name == leaf) with
    | some (.mk _ .dnil []) => some (.mk nm (removeSubNamed subs leaf) files)
    | some _ => none
    | none =>
      if hasFileName files leaf then some (.mk nm subs (removeFileNamed files leaf))
      else none
  | .mk nm subs files, seg :: s2 :: rest =>
    match (FDirList.toListD subs).find? (fun c => c.name == seg) with
    | some child =>
      (fsRemove child (s2 :: rest)).map
        (fun c' => .mk nm (replaceSubNamed subs seg c') files)
    | none => none

/-- BlockStore.ReadInto resolved by file strong against the source store
(part_001: repo.File(strong), then read the file's bytes). -/
def srcContent (src : FDir) (s : Strong) : Option (List Int) :=
  (nodesOf (.pdir src)).findSome? (fun pr =>
    match pr.2 with
    | .pfile f => if FFile.strongOf f = s then some f.content else none
    | .pdir _ => none)

/-- Executor state: destination tree, the plan's reference counts (the Go
commands share the map object built by the planner), the store's relocation
map, a counter for fresh _reloc names, and the relocated paths collected for
Conflict.Cleanup. -/
structure ExecSt where
  fs : FDir
  relocRefs : List (RPath × Int)
  relocs : List (RPath × RPath)
  fresh : Nat
  conflictRelocs : List RPath

inductive ExecErr where
  | underflow (path : RPath)
  | copyFailed (path : RPath)
  | moveFailed (path : RPath)
  | relocateFailed (path : RPath)
  | srcNotFound (s : Strong)
  | createFailed (path : RPath)
  | openFailed (path : RPath)
  deriving DecidableEq, Repr

/-- LocalPath.Resolve at execution time: the relocation map shadows the
original relative path. -/
def resolveRel (st : ExecSt) (p : RPath) : RPath := (mapLookup st.relocs p).getD p

/-- Interpret a path the store received as absolute: strip the root prefix.
Fails when the path is not under the root - in particular when a relative
path was passed where an absolute one is expected (then the Go Move would
act on a working-directory-relative path and fail). -/
def stripRoot : RPath → RPath → Option RPath
  | [], p => some p
  | _ :: _, [] => none
  | r :: rs, q :: qs => if r = q then stripRoot rs qs else none

def relocNameStr (n : Nat) : String := "_reloc" ++ toString n

/-- PatchCmd.Exec for each command.

Transfer.Exec decrements relocRefs[From.RelPath] first; zero moves, positive
copies, negative errors.  Conflict.Exec calls store.Relocate on the RelPath
field (Relocate expects an absolute path: it temp-names a sibling at the
root, moves the entry there and records the relocation under the relative
path).  SrcFileDownload creates the target and streams the whole source
file. -/
def execCmd (src : FDir) (dstRoot : RPath) (st : ExecSt) : PCmd → Except ExecErr ExecSt
  | .keep _ => .ok st
  | .transfer fromP toP =>
    if refGet st.relocRefs fromP - 1 = 0 then
      match fsMove st.fs (resolveRel st fromP) (resolveRel st toP) with
      | some fs' =>
        .ok { st with
                fs := fs',
                relocRefs := mapInsert st.relocRefs fromP (refGet st.relocRefs fromP - 1) }
      | none => .error (.moveFailed fromP)
    else if refGet st.relocRefs fromP - 1 > 0 then
      match fsCopyFile st.fs (resolveRel st fromP) (resolveRel st toP) with
      | some fs' =>
        .ok { st with
                fs := fs',
                relocRefs := mapInsert st.relocRefs fromP (refGet st.relocRefs fromP - 1) }
      | none => .error (.copyFailed fromP)
    else .error (.underflow fromP)
  | .conflict pathField =>
    match stripRoot dstRoot pathField with
    | some rel =>
      match fsDetach st.fs rel with
      | some (fs1, entry) =>
        match fsSetNode fs1 [relocNameStr st.fresh] entry with
        | some fs2 =>
          .ok { st with
                  fs := fs2,
                  relocs := mapInsert st.relocs rel [relocNameStr st.fresh],
                  fresh := st.fresh + 1,
                  conflictRelocs := st.conflictRelocs ++ [[relocNameStr st.fresh]] }
        | none => .error (.relocateFailed pathField)
      | none => .error (.relocateFailed pathField)
    | none => .error (.relocateFailed pathField)
  | .srcFileDownload s path =>
    match srcContent src s with
    | some content =>
      match fsSetNode st.fs (resolveRel st path) (.pfile ⟨"", content⟩) with
      | some fs' => .ok { st with fs := fs' }
      | none => .error (.createFailed path)
    | none => .error (.srcNotFound s)
  | .stagedFileEdit s path =>
    match srcContent src s with
    | some content =>
      match fsStat st.fs (resolveRel st path) with
      | some (.pfile _) =>
        match fsSetNode st.fs (resolveRel st path) (.pfile ⟨"", content⟩) with
        | some fs' => .ok { st with fs := fs' }
        | none => .error (.createFailed path)
      | _ => .error (.openFailed path)
    | none => .error (.srcNotFound s)

/-- The command loop of PatchPlan.Exec: stop at the first failing command. -/
def execCmds (src : FDir) (dstRoot : RPath) : ExecSt → List PCmd → Except (PCmd × ExecErr) ExecSt
  | st, [] => .ok st
  | st, c :: rest =>
    match execCmd src dstRoot st c with
    | .ok st' => execCmds src dstRoot st' rest
    | .error e => .error (c, e)

/-- os.RemoveAll: remove the subtree if present; a missing path succeeds. -/
def removeAllAt (fs : FDir) (p : RPath) : FDir :=
  match fsDetach fs p with
  | some (fs', _) => fs'
  | none => fs

/-- Conflict.Cleanup over the conflicts collected during a successful run. -/
def cleanupConflicts (st : ExecSt) : ExecSt :=
  { st with fs := st.conflictRelocs.foldl removeAllAt st.fs }

def initExecSt (dst : FDir) (plan : PlanSt) : ExecSt := ⟨dst, plan.relocRefs, [], 0, []⟩

/-- PatchPlan.Exec: run all commands in order; on full success clean up every
Conflict's relocated original. -/
def PatchPlanExec (src dst : FDir) (dstRoot : RPath) (plan : PlanSt) :
    Except (PCmd × ExecErr) ExecSt :=
  (execCmds src dstRoot (initExecSt dst plan) plan.cmds).map cleanupConflicts

/-- PatchPlan.Clean: remove every path still in dstFileUnmatch, resolving
through the relocation map; removal errors are reported (second component)
and non-fatal. -/
def planClean (st : ExecSt) (unmatch : List RPath) : ExecSt × List RPath :=
  unmatch.foldl
    (fun (pr : ExecSt × List RPath) p =>
      match fsRemove pr.1.fs (resolveRel pr.1 p) with
      | some fs' => ({ pr.1 with fs := fs' }, pr.2)
      | none => (pr.1, pr.2 ++ [p]))
    (st, [])

/-- The end-to-end pipeline of claim C1: plan, Exec, then Clean.  Returns
the final destination tree and Clean's error list on a fully successful
Exec, none when some command failed. -/
def runPlanAndClean (src dst : FDir) (dstRoot : RPath) : Option (FDir × List RPath) :=
  match PatchPlanExec src dst dstRoot (NewPatchPlan dstRoot src dst) with
  | .ok st =>
    match planClean st (NewPatchPlan dstRoot src dst).dstFileUnmatch with
    | (st2, errs) => some (st2.fs, errs)
  | .error _ => none

/-- Claim C1 evaluated at its failing input: source is a root with one file
g (byte 1); destination has only a directory extra containing file f (byte
2).  Every planned command succeeds (the pipeline returns some), Clean runs
and even succeeds on every removal (empty error list), yet the re-indexed
destination root keeps the now-empty directory extra in its listing and its
strong checksum differs from the source root's: nothing ever removes
destination-only directories. -/
theorem claim_C1_dest_only_dir_breaks_replica :
    (runPlanAndClean (FDir.mk "" .dnil [⟨"g", [1]⟩])
          (FDir.mk "" (.dcons (.mk "extra" .dnil [⟨"f", [2]⟩]) .dnil) []) ["dst"]).map
        (fun pr => (FDir.strongOf pr.1, pr.2))
      = some (.scons .snil true "extra" (.scons (.bytesS [1]) false "g" .snil), []) ∧
      FDir.strongOf (FDir.mk "" .dnil [⟨"g", [1]⟩])
        = .scons (.bytesS [1]) false "g" .snil ∧
        (Strong.scons .snil true "extra" (.scons (.bytesS [1]) false "g" .snil))
          ≠ .scons (.bytesS [1]) false "g" .snil :=
  ⟨by decide, by decide, by decide⟩

/-! ### Claim C4: Transfer.Exec reference counting -/

theorem find?_replaceFileNamed_same (fl : List FFile) (g : FFile) (nm : String) :
    (replaceFileNamed fl nm g).find? (fun h => h.name == nm) = some { g with name := nm } := by
  induction fl with
  | nil => simp [replaceFileNamed, List.find?]
  | cons h rest ih =>
    rw [replaceFileNamed]
    by_cases hh : h.name = nm
    · simp [hh, List.find?]
    · have hb : (h.name == nm) = false := by simp [hh]
      rw [if_neg (by simp [hh])]
      simp only [List.find?, hb]
      exact ih

theorem find?_replaceFileNamed_other (fl : List FFile) (g : FFile) (nm nm' : String)
    (h : ¬ nm' = nm) :
    (replaceFileNamed fl nm g).find? (fun h2 => h2.name == nm')
      = fl.find? (fun h2 => h2.name == nm') := by
  induction fl with
  | nil =>
    simp only [replaceFileNamed, List.find?]
    have : (({ g with name := nm } : FFile).name == nm') = false := by
      simp
      exact fun hc => h hc.symm
    simp [this]
  | cons h2 rest ih =>
    rw [replaceFileNamed]
    by_cases hh : h2.name = nm
    · have hne2 : (({ g with name := nm } : FFile).name == nm') = false := by
        simp
        exact fun hc => h hc.symm
      have hne3 : (h2.name == nm') = false := by
        simp [hh]
        exact fun hc => h hc.symm
      rw [if_pos (by simp [hh])]
      simp only [List.find?, hne2, hne3]
    · rw [if_neg (by simp [hh])]
      simp only [List.find?]
      cases hc : (h2.name == nm') with
      | true => rfl
      | false => exact ih

theorem find?_removeFileNamed_same (fl : List FFile) (nm : String) :
    (removeFileNamed fl nm).find? (fun h => h.name == nm) = none := by
  induction fl with
  | nil => rfl
  | cons h rest ih =>
    rw [removeFileNamed, List.filter_cons]
    by_cases hh : h.name = nm
    · rw [if_neg (by simp [hh])]
      exact ih
    · rw [if_pos (by simp [hh])]
      simp only [List.find?]
      have hb : (h.name == nm) = false := by simp [hh]
      rw [hb]
      exact ih

/-- Claim C4: Transfer.Exec first decrements relocRefs[From]; when the
resulting count is zero the destination content moves from From to To (the
original disappears), when it is positive the content is copied (the
original stays in place for remaining consumers), and when it is negative no
transfer happens and a reference-count-underflow error is returned.  Stated
over a root directory holding a file named a, transferred to the distinct
name b, with no relocation shadowing. -/
theorem claim_C4_transfer_refcount (src : FDir) (dstRoot : RPath) (st : ExecSt)
    (rn a b : String) (files : List FFile) (f : FFile)
    (hfs : st.fs = .mk rn .dnil files)
    (hrelocs : st.relocs = [])
    (hne : a ≠ b)
    (hfind : files.find? (fun g => g.name == a) = some f) :
    (refGet st.relocRefs [a] ≤ 0 →
        execCmd src dstRoot st (.transfer [a] [b]) = .error (.underflow [a])) ∧
      (refGet st.relocRefs [a] = 1 →
          ∃ st2, execCmd src dstRoot st (.transfer [a] [b]) = .ok st2 ∧
            refGet st2.relocRefs [a] = 0 ∧
            fsStat st2.fs [a] = none ∧
            fsStat st2.fs [b] = some (.pfile { f with name := b })) ∧
        (2 ≤ refGet st.relocRefs [a] →
            ∃ st2, execCmd src dstRoot st (.transfer [a] [b]) = .ok st2 ∧
              refGet st2.relocRefs [a] = refGet st.relocRefs [a] - 1 ∧
              fsStat st2.fs [a] = some (.pfile f) ∧
              fsStat st2.fs [b] = some (.pfile { f with name := b })) := by
  have hres : ∀ p : RPath, resolveRel st p = p := by
    intro p
    simp [resolveRel, hrelocs, mapLookup]
  have hfind_a_after : (replaceFileNamed (removeFileNamed files a) b f).find?
      (fun g => g.name == a) = none := by
    rw [find?_replaceFileNamed_other _ _ _ _ hne]
    exact find?_removeFileNamed_same files a
  have hfind_b_after : (replaceFileNamed (removeFileNamed files a) b f).find?
      (fun g => g.name == b) = some { f with name := b } :=
    find?_replaceFileNamed_same _ f b
  have hfind_a_copy : (replaceFileNamed files b f).find? (fun g => g.name == a)
      = some f := by
    rw [find?_replaceFileNamed_other _ _ _ _ hne]
    exact hfind
  have hfind_b_copy : (replaceFileNamed files b f).find? (fun g => g.name == b)
      = some { f with name := b } :=
    find?_replaceFileNamed_same _ f b
  refine ⟨?_, ?_, ?_⟩
  · intro hle
    rw [execCmd]
    rw [if_neg (by omega), if_neg (by omega)]
  · intro h1
    rw [execCmd, if_pos (by omega)]
    rw [hres, hres, hfs]
    have hdet : fsDetach (.mk rn .dnil files) [a]
        = some (.mk rn .dnil (removeFileNamed files a), .pfile f) := by
      simp only [fsDetach, FDirList.toListD, List.find?, hfind]
    have hset : fsSetNode (.mk rn .dnil (removeFileNamed files a)) [b] (.pfile f)
        = some (.mk rn .dnil (replaceFileNamed (removeFileNamed files a) b f)) := by
      simp only [fsSetNode, hasSubName, FDirList.toListD, List.any_nil]
      rfl
    rw [fsMove, hdet]
    simp only [hset]
    refine ⟨_, rfl, ?_, ?_, ?_⟩
    · have h1b : (mapLookup st.relocRefs [a]).getD 0 = 1 := h1
      simp [refGet, mapLookup_insert, h1b]
    · simp only [fsStat, FDirList.toListD, List.find?, hfind_a_after]
    · simp only [fsStat, FDirList.toListD, List.find?, hfind_b_after, List.isEmpty_nil,
        if_true]
  · intro h2
    rw [execCmd, if_neg (by omega), if_pos (by omega)]
    rw [hres, hres, hfs]
    have hstat : fsStat (.mk rn .dnil files) [a] = some (.pfile f) := by
      simp only [fsStat, FDirList.toListD, List.find?, hfind, List.isEmpty_nil, if_true]
    have hset : fsSetNode (.mk rn .dnil files) [b] (.pfile f)
        = some (.mk rn .dnil (replaceFileNamed files b f)) := by
      simp only [fsSetNode, hasSubName, FDirList.toListD, List.any_nil]
      rfl
    rw [fsCopyFile, hstat]
    simp only [hset]
    refine ⟨_, rfl, ?_, ?_, ?_⟩
    · simp [refGet, mapLookup_insert]
    · simp only [fsStat, FDirList.toListD, List.find?, hfind_a_copy, List.isEmpty_nil,
        if_true]
    · simp only [fsStat, FDirList.toListD, List.find?, hfind_b_copy, List.isEmpty_nil,
        if_true]

/-- Witness for C4 at a concrete state: one file x under the root, reference
count 1, transferred to y: the move outcome. -/
theorem claim_C4_witness :
    refGet ([(["x"], 1)] : List (RPath × Int)) ["x"] = 1 ∧
      ∃ st2,
        execCmd (FDir.mk "" .dnil []) ["dst"]
            ⟨FDir.mk "" .dnil [⟨"x", [3]⟩], [(["x"], 1)], [], 0, []⟩
            (.transfer ["x"] ["y"]) = .ok st2 ∧
          refGet st2.relocRefs ["x"] = 0 ∧
          fsStat st2.fs ["x"] = none ∧
          fsStat st2.fs ["y"] = some (.pfile ⟨"y", [3]⟩) :=
  ⟨by decide,
    (claim_C4_transfer_refcount (FDir.mk "" .dnil []) ["dst"]
        ⟨FDir.mk "" .dnil [⟨"x", [3]⟩], [(["x"], 1)], [], 0, []⟩
        "" "x" "y" [⟨"x", [3]⟩] ⟨"x", [3]⟩ rfl rfl (by decide) (by decide)).2.1
      (by decide)⟩

/-! ### Claim C2 (amended): identical trees with pairwise-distinct strongs
plan to Keeps only -/

/-- Total node count of a queue, the walk's fuel measure. -/
def qWeight (q : List (RPath × PNode)) : Nat :=
  (q.map (fun x => PNode.countNodes x.2)).sum

theorem countNodes_pos (nd : PNode) : 1 ≤ nd.countNodes := by
  cases nd with
  | pfile f => exact le_refl 1
  | pdir d =>
    cases d with
    | mk nm subs files =>
      rw [PNode.countNodes, FDir.countNodes]
      omega

theorem sum_countNodes_toListD : ∀ (subs : FDirList),
    ((FDirList.toListD subs).map FDir.countNodes).sum = FDirList.countList subs
  | .dnil => rfl
  | .dcons d rest => by
    rw [FDirList.toListD, List.map_cons, List.sum_cons, sum_countNodes_toListD rest,
      FDirList.countList]

theorem qWeight_append (q₁ q₂ : List (RPath × PNode)) :
    qWeight (q₁ ++ q₂) = qWeight q₁ + qWeight q₂ := by
  rw [qWeight, List.map_append, List.sum_append]
  rfl

theorem qWeight_cons (x : RPath × PNode) (q : List (RPath × PNode)) :
    qWeight (x :: q) = PNode.countNodes x.2 + qWeight q := rfl

theorem qWeight_childrenOf (p : RPath) (nd : PNode) :
    qWeight (childrenOf p nd) < nd.countNodes := by
  cases nd with
  | pfile f =>
    rw [childrenOf, PNode.countNodes]
    norm_num [qWeight]
  | pdir d =>
    cases d with
    | mk nm subs files =>
      rw [childrenOf, PNode.countNodes, FDir.countNodes, qWeight, List.map_append,
        List.sum_append, List.map_map, List.map_map]
      have h1 : (((FDirList.toListD subs).map
            ((fun x => PNode.countNodes x.2) ∘ fun d => (p ++ [d.name], PNode.pdir d)))).sum
          = FDirList.countList subs := by
        rw [show ((fun x => PNode.countNodes x.2) ∘ fun d => (p ++ [d.name], PNode.pdir d))
            = FDir.countNodes from rfl]
        exact sum_countNodes_toListD subs
      have h2 : ∀ fl : List FFile, ((fl.map
            ((fun x => PNode.countNodes x.2) ∘ fun f => (p ++ [f.name], PNode.pfile f)))).sum
          = fl.length := by
        intro fl
        induction fl with
        | nil => rfl
        | cons f rest ih =>
          rw [List.map_cons, List.sum_cons, ih,
            show ((fun x => PNode.countNodes x.2)
              ∘ fun f => (p ++ [f.name], PNode.pfile f)) f = 1 from rfl,
            List.length_cons]
          omega
      rw [h1, h2]
      omega

theorem mem_bfsNodes_self : ∀ (n : Nat) (q : List (RPath × PNode)) (x : RPath × PNode),
    x ∈ q → qWeight q ≤ n → x ∈ bfsNodes n q := by
  intro n
  induction n with
  | zero =>
    intro q x hx hw
    exfalso
    have h1 : 1 ≤ PNode.countNodes x.2 := countNodes_pos x.2
    have h2 : PNode.countNodes x.2 ≤ qWeight q := by
      rw [qWeight]
      exact List.single_le_sum (fun y _ => Nat.zero_le y) _ (List.mem_map_of_mem _ hx)
    omega
  | succ n ih =>
    intro q x hx hw
    cases q with
    | nil => cases hx
    | cons y rest =>
      rw [bfsNodes]
      rcases List.mem_cons.mp hx with h | h
      · subst h
        cases x with
        | mk p nd => exact List.mem_cons_self _ _
      · cases y with
        | mk yp ynd =>
          apply List.mem_cons_of_mem
          apply ih _ x (List.mem_append_left _ h)
          have hc := qWeight_childrenOf yp ynd
          rw [qWeight_append]
          rw [qWeight_cons] at hw
          dsimp only at hw ⊢
          omega

theorem mem_bfsNodes_children : ∀ (n : Nat) (q : List (RPath × PNode))
    (p : RPath) (nd : PNode) (c : RPath × PNode),
    (p, nd) ∈ bfsNodes n q → qWeight q ≤ n → c ∈ childrenOf p nd →
      c ∈ bfsNodes n q := by
  intro n
  induction n with
  | zero =>
    intro q p nd c hmem
    rw [bfsNodes] at hmem
    cases hmem
  | succ n ih =>
    intro q p nd c hmem hw hc
    cases q with
    | nil =>
      rw [bfsNodes] at hmem
      cases hmem
    | cons y rest =>
      cases y with
      | mk yp ynd =>
        rw [bfsNodes] at hmem ⊢
        have hwrec : qWeight (rest ++ childrenOf yp ynd) ≤ n := by
          have hcw := qWeight_childrenOf yp ynd
          rw [qWeight_append]
          rw [qWeight_cons] at hw
          dsimp only at hw
          omega
        rcases List.mem_cons.mp hmem with h | h
        · cases h
          apply List.mem_cons_of_mem
          exact mem_bfsNodes_self n _ c (List.mem_append_right _ hc) hwrec
        · exact List.mem_cons_of_mem _ (ih _ p nd c h hwrec hc)

theorem root_mem_nodesOf (t : PNode) : ([], t) ∈ nodesOf t := by
  rw [nodesOf]
  cases hn : t.countNodes with
  | zero =>
    have := countNodes_pos t
    omega
  | succ n =>
    rw [bfsNodes]
    exact List.mem_cons_self _ _

theorem findSome?_eq_some_of_unique {α β : Type} (l : List α) (F : α → Option β)
    (a : α) (b : β) (ha : a ∈ l) (hfa : F a = some b)
    (huni : ∀ x ∈ l, F x ≠ none → x = a) : l.findSome? F = some b := by
  induction l with
  | nil => cases ha
  | cons y ys ih =>
    rw [List.findSome?_cons]
    cases hy : F y with
    | some c =>
      have hya : y = a := huni y (List.mem_cons_self _ _) (by rw [hy]; exact Option.some_ne_none c)
      rw [hya, hfa] at hy
      rw [← hy]
    | none =>
      have hane : a ≠ y := fun hc => by rw [← hc, hfa] at hy; cases hy
      have hays : a ∈ ys := by
        rcases List.mem_cons.mp ha with h | h
        · exact absurd h hane
        · exact h
      exact ih hays (fun x hx hne => huni x (List.mem_cons_of_mem _ hx) hne)

theorem dirEntriesStrong_ne_bytesS : ∀ (subs : FDirList) (k : Strong),
    (∀ bs, k ≠ .bytesS bs) → ∀ bs, FDirList.dirEntriesStrong subs k ≠ .bytesS bs
  | .dnil, k, hk => hk
  | .dcons d rest, k, hk => by
    intro bs
    rw [FDirList.dirEntriesStrong]
    intro hc
    cases hc

theorem fileEntriesStrong_ne_bytesS : ∀ (files : List FFile) (k : Strong),
    (∀ bs, k ≠ .bytesS bs) → ∀ bs, fileEntriesStrong files k ≠ .bytesS bs
  | [], k, hk => hk
  | f :: rest, k, hk => by
    intro bs
    rw [fileEntriesStrong]
    intro hc
    cases hc

theorem FDir.strongOf_ne_bytesS (d : FDir) (bs : List Int) :
    d.strongOf ≠ .bytesS bs := by
  cases d with
  | mk nm subs files =>
    rw [FDir.strongOf]
    exact dirEntriesStrong_ne_bytesS subs _
      (fileEntriesStrong_ne_bytesS files .snil (fun bs2 hc => by cases hc)) bs

/-- With pairwise-distinct strongs, the repo maps send each node of the tree
back to itself at its own relative path. -/
theorem repoFile_self (t : FDir)
    (hnodup : ((nodesOf (.pdir t)).map (fun x => PNode.strongOf x.2)).Nodup)
    (p : RPath) (f : FFile) (hmem : (p, .pfile f) ∈ nodesOf (.pdir t)) :
    repoFile (.pdir t) (PNode.strongOf (.pfile f)) = some (p, f) := by
  rw [repoFile]
  apply findSome?_eq_some_of_unique _ _ (p, PNode.pfile f) _ hmem
  · rw [show PNode.strongOf (.pfile f) = FFile.strongOf f from rfl]
    simp
  · intro x hx hne
    apply List.inj_on_of_nodup_map hnodup hx hmem
    cases hxn : x.2 with
    | pdir d =>
      exfalso
      apply hne
      rw [hxn]
    | pfile g =>
      rw [hxn] at hne
      by_cases hs : FFile.strongOf g = PNode.strongOf (.pfile f)
      · exact hs
      · exfalso
        apply hne
        show (if FFile.strongOf g = PNode.strongOf (.pfile f)
          then some (x.1, g) else none) = none
        rw [if_neg hs]

theorem repoFile_none_of_dir (t : FDir)
    (d : FDir) :
    repoFile (.pdir t) (PNode.strongOf (.pdir d)) = none := by
  rw [repoFile, List.findSome?_eq_none]
  intro x _
  cases hxn : x.2 with
  | pdir d2 => rfl
  | pfile g =>
    have hs : FFile.strongOf g ≠ PNode.strongOf (.pdir d) := by
      rw [show PNode.strongOf (.pdir d) = FDir.strongOf d from rfl]
      intro hc
      exact FDir.strongOf_ne_bytesS d g.content hc.symm
    simp only [if_neg hs]

theorem repoDir_self (t : FDir)
    (hnodup : ((nodesOf (.pdir t)).map (fun x => PNode.strongOf x.2)).Nodup)
    (p : RPath) (d : FDir) (hmem : (p, .pdir d) ∈ nodesOf (.pdir t)) :
    repoDir (.pdir t) (PNode.strongOf (.pdir d)) = some (p, d) := by
  rw [repoDir]
  apply findSome?_eq_some_of_unique _ _ (p, PNode.pdir d) _ hmem
  · rw [show PNode.strongOf (.pdir d) = FDir.strongOf d from rfl]
    simp
  · intro x hx hne
    apply List.inj_on_of_nodup_map hnodup hx hmem
    cases hxn : x.2 with
    | pfile g =>
      exfalso
      apply hne
      rw [hxn]
    | pdir d2 =>
      rw [hxn] at hne
      by_cases hs : FDir.strongOf d2 = PNode.strongOf (.pdir d)
      · exact hs
      · exfalso
        apply hne
        show (if FDir.strongOf d2 = PNode.strongOf (.pdir d)
          then some (x.1, d2) else none) = none
        rw [if_neg hs]

theorem planStep_keep (dst : FDir) (root : RPath) (st : PlanSt) (p : RPath) (nd : PNode)
    (hnodup : ((nodesOf (.pdir dst)).map (fun x => PNode.strongOf x.2)).Nodup)
    (hmem : (p, nd) ∈ nodesOf (.pdir dst)) :
    (planStep dst root st p nd).cmds = st.cmds ++ [.keep p] := by
  cases nd with
  | pfile f =>
    have hfile := repoFile_self dst hnodup p f hmem
    simp [planStep, hfile, PNode.isFile]
  | pdir d =>
    have hfile := repoFile_none_of_dir dst d
    have hdir := repoDir_self dst hnodup p d hmem
    simp [planStep, hfile, hdir, PNode.isFile]

theorem planWalk_all_keep (dst : FDir) (root : RPath)
    (hnodup : ((nodesOf (.pdir dst)).map (fun x => PNode.strongOf x.2)).Nodup) :
    ∀ (n : Nat) (q : List (RPath × PNode)) (st : PlanSt),
      (∀ x ∈ q, x ∈ nodesOf (.pdir dst)) →
      (∀ c ∈ st.cmds, c.isKeep = true) →
      ∀ c ∈ (planWalk dst root n st q).cmds, c.isKeep = true := by
  intro n
  induction n with
  | zero =>
    intro q st _ hst
    rw [planWalk]
    exact hst
  | succ n ih =>
    intro q st hq hst
    cases q with
    | nil =>
      rw [planWalk]
      exact hst
    | cons y rest =>
      cases y with
      | mk p nd =>
        rw [planWalk]
        apply ih
        · intro x hx
          rcases List.mem_append.mp hx with h | h
          · exact hq x (List.mem_cons_of_mem _ h)
          · have hpn := hq (p, nd) (List.mem_cons_self _ _)
            have hw : qWeight [([], PNode.pdir dst)] ≤ PNode.countNodes (.pdir dst) := by
              simp [qWeight]
            exact mem_bfsNodes_children _ _ p nd x hpn hw h
        · intro c hc
          rw [planStep_keep dst root st p nd hnodup (hq _ (List.mem_cons_self _ _))] at hc
          rcases List.mem_append.mp hc with h | h
          · exact hst c h
          · rw [List.mem_singleton.mp h]
            rfl

theorem execCmds_all_keep (src : FDir) (root : RPath) :
    ∀ (cmds : List PCmd) (st : ExecSt), (∀ c ∈ cmds, c.isKeep = true) →
      execCmds src root st cmds = .ok st := by
  intro cmds
  induction cmds with
  | nil => intro st _; rfl
  | cons c rest ih =>
    intro st h
    have hc := h c (List.mem_cons_self _ _)
    cases c with
    | keep path =>
      rw [execCmds]
      rw [show execCmd src root st (.keep path) = .ok st from rfl]
      exact ih st (fun c2 hc2 => h c2 (List.mem_cons_of_mem _ hc2))
    | transfer a b => exact Bool.noConfusion hc
    | conflict a => exact Bool.noConfusion hc
    | srcFileDownload s a => exact Bool.noConfusion hc
    | stagedFileEdit s a => exact Bool.noConfusion hc

/-- Claim C2 as amended: planning a tree onto an identical destination emits
only Keep commands - provided no two distinct nodes of the tree share a
strong checksum (no duplicate file contents and no duplicate directory
contents) - and executing the resulting plan performs no filesystem
modification (Exec succeeds and leaves the executor state, in particular the
destination tree, untouched).  Without the distinctness proviso a Transfer
can be emitted (see the counterexample). -/
theorem claim_C2_amended_identity_keep_only (root : RPath) (t : FDir)
    (hnodup : ((nodesOf (.pdir t)).map (fun x => PNode.strongOf x.2)).Nodup) :
    (∀ c ∈ (NewPatchPlan root t t).cmds, c.isKeep = true) ∧
      PatchPlanExec t t root (NewPatchPlan root t t)
        = .ok (initExecSt t (NewPatchPlan root t t)) := by
  have hall : ∀ c ∈ (NewPatchPlan root t t).cmds, c.isKeep = true := by
    rw [NewPatchPlan]
    apply planWalk_all_keep t root hnodup
    · intro x hx
      rw [List.mem_singleton.mp hx]
      exact root_mem_nodesOf (.pdir t)
    · intro c hc
      cases hc
  refine ⟨hall, ?_⟩
  rw [PatchPlanExec, execCmds_all_keep t root _ _ hall]
  rfl

/-- Witness for the amended C2: a root with two files of distinct contents;
the plan is Keeps only and execution returns the initial state. -/
theorem claim_C2_amended_witness :
    ((nodesOf (.pdir (FDir.mk "" .dnil [⟨"a", [1]⟩, ⟨"b", [2]⟩]))).map
        (fun x => PNode.strongOf x.2)).Nodup ∧
      (∀ c ∈ (NewPatchPlan ["dst"] (FDir.mk "" .dnil [⟨"a", [1]⟩, ⟨"b", [2]⟩])
            (FDir.mk "" .dnil [⟨"a", [1]⟩, ⟨"b", [2]⟩])).cmds, c.isKeep = true) ∧
        PatchPlanExec (FDir.mk "" .dnil [⟨"a", [1]⟩, ⟨"b", [2]⟩])
            (FDir.mk "" .dnil [⟨"a", [1]⟩, ⟨"b", [2]⟩]) ["dst"]
            (NewPatchPlan ["dst"] (FDir.mk "" .dnil [⟨"a", [1]⟩, ⟨"b", [2]⟩])
              (FDir.mk "" .dnil [⟨"a", [1]⟩, ⟨"b", [2]⟩]))
          = .ok (initExecSt (FDir.mk "" .dnil [⟨"a", [1]⟩, ⟨"b", [2]⟩])
              (NewPatchPlan ["dst"] (FDir.mk "" .dnil [⟨"a", [1]⟩, ⟨"b", [2]⟩])
                (FDir.mk "" .dnil [⟨"a", [1]⟩, ⟨"b", [2]⟩]))) :=
  ⟨by decide,
    (claim_C2_amended_identity_keep_only ["dst"] (FDir.mk "" .dnil [⟨"a", [1]⟩, ⟨"b", [2]⟩])
      (by decide)).1,
    (claim_C2_amended_identity_keep_only ["dst"] (FDir.mk "" .dnil [⟨"a", [1]⟩, ⟨"b", [2]⟩])
      (by decide)).2⟩
